import Mathlib

/-!
Verification development for the buffered line-delimited socket channel
implemented in `pyp2p/sock.py` (class `Sock`).

The Python class is shallowly embedded: the channel state (`Sock`) carries the
accumulation buffer, the reply queue, the connection flags and the configured
limits, together with a model of the underlying transport as a list of pending
receive results and a list of pending send results.  Buffers are modelled as
`List Char` (the Python side works on decoded text).  Every operation of the
class that the claims touch is translated function by function; loops become
fuel- or structurally-recursive Lean functions.  Wall-clock time (socket
timeouts, the heartbeat interval, `recv_line`'s deadline) is not modelled as
real time: a blocking socket whose transport has no further results behaves as
a timeout, and deadlines are represented by the fuel of the corresponding
loops.  The application-level heartbeat `send_line("PING")` issued inside
`get_chunks` only writes to the transport and never touches the receive
buffer, the reply queue or the chunk counter, so its send effect is omitted.
-/

/-- One result of a call to the underlying `socket.recv` (or of the decode
step that follows it in `Sock.get_chunks`): a chunk of available data (already
decoded to text), a chunk whose decode fails (`UnicodeDecodeError`), a
`socket.timeout`, a would-block signal (`EAGAIN`/`EWOULDBLOCK` or
`SSL_ERROR_WANT_READ`), or an orderly close / fatal transport error. -/
inductive RecvEv where
  | chunk (s : List Char)
  | badChunk
  | timeout
  | wouldBlock
  | closed
deriving DecidableEq

/-- One result of a call to the underlying `socket.send`: the socket accepted
up to `n` bytes, or the call raised. -/
inductive SendEv where
  | ok (n : Nat)
  | err
deriving DecidableEq

/-- The state of one `Sock` instance, plus the modelled transport.
`addr`/`port` are `Option (Option Nat)`: the outer layer records whether the
attribute has ever been assigned (Python raises `AttributeError` when it has
not), the inner layer is the Python value (`None` or an actual address). -/
structure Sock where
  buf : List Char
  replies : List (List Char)
  connected : Bool
  blocking : Bool
  max_buf : Nat
  max_chunks : Nat
  chunk_size : Nat
  events : List RecvEv
  sendEvents : List SendEv
  reply_filter : Option (List Char → Bool)
  addr : Option (Option Nat)
  port : Option (Option Nat)

/-- The character scan inside `Sock.parse_buf` (sock.py lines 195-222).  It
mirrors the `for ch in self.buf` loop with its `reply`, `replies`, `chop` and
`skip` variables: the two-character pattern realises the `nxt < buf_len`
lookahead together with `skip`, `i` is the running index, and a found
delimiter records `chop = nxt + 1 = i + 2`.  Returns the collected replies
(in order) and the final value of `chop`. -/
def parseLoop : List Char → List Char → List (List Char) → Nat → Nat →
    List (List Char) × Nat
  | [], _, replies, _, chop => (replies.reverse, chop)
  | [_], _, replies, _, chop => (replies.reverse, chop)
  | c1 :: c2 :: rest, reply, replies, i, chop =>
    if c1 = '\r' ∧ c2 = '\n' then
      parseLoop rest [] (if reply = [] then replies else reply :: replies) (i + 2) (i + 2)
    else
      parseLoop (c2 :: rest) (reply ++ [c1]) replies (i + 1) chop

/-- `Sock.parse_buf` (sock.py lines 188-228): splits the buffer on the
hard-coded `"\r\n"` delimiter, returning the completed replies and the new
buffer (`self.buf = self.buf[chop:]` is executed only `if chop`). -/
def Sock.parse_buf (buf : List Char) : List (List Char) × List Char :=
  let r := parseLoop buf [] [] 0 0
  (r.1, if r.2 ≠ 0 then buf.drop r.2 else buf)

/-! ### Specification-side description of the frame parser

The following definitions are not translations of the source; they express,
in the words of the specification, what splitting a buffer on the delimiter
means: `splitCRLF` cuts a character list at every (leftmost, non-overlapping)
occurrence of CR LF, the segments before the delimiters are the candidate
messages, and the last segment is the unterminated tail. -/

/-- Does the list contain the two-byte delimiter CR LF as a substring?
(Specification-side; also models Python's `self.delimiter in self.buf`.) -/
def hasCRLF : List Char → Bool
  | [] => false
  | [_] => false
  | c1 :: c2 :: rest =>
    if c1 = '\r' ∧ c2 = '\n' then true else hasCRLF (c2 :: rest)

/-- Prepend `r` to the first segment of a segment list. -/
def consHead (r : List Char) : List (List Char) → List (List Char)
  | [] => [r]
  | s :: ss => (r ++ s) :: ss

/-- Split a character list at every leftmost non-overlapping occurrence of
CR LF.  The result is always non-empty; all entries but the last sit before a
delimiter occurrence, the last entry is the text after the final delimiter. -/
def splitCRLF : List Char → List (List Char)
  | [] => [[]]
  | [c] => [[c]]
  | c1 :: c2 :: rest =>
    if c1 = '\r' ∧ c2 = '\n' then [] :: splitCRLF rest
    else consHead [c1] (splitCRLF (c2 :: rest))

/-- Interleave segments with the CR LF delimiter and append the tail:
`joinCRLF [s1, …, sk] t = s1 ++ CRLF ++ … ++ sk ++ CRLF ++ t`. -/
def joinCRLF : List (List Char) → List Char → List Char
  | [], t => t
  | s :: ss, t => s ++ '\r' :: '\n' :: joinCRLF ss t

/-- All entries of a segment list except the last one. -/
def dropLastL : List (List Char) → List (List Char)
  | [] => []
  | [_] => []
  | s :: s2 :: ss => s :: dropLastL (s2 :: ss)

/-- The last entry of a segment list (or `[]` for the empty list). -/
def lastD : List (List Char) → List Char
  | [] => []
  | [s] => s
  | _ :: s :: ss => lastD (s :: ss)

/-- The unterminated tail of a buffer: the text after its last delimiter. -/
def lastSeg (l : List Char) : List Char := lastD (splitCRLF l)

/-- The complete messages contained in a buffer: the segments before each
delimiter occurrence, with empty segments dropped. -/
def msgs (l : List Char) : List (List Char) :=
  (dropLastL (splitCRLF l)).filter (fun s => !s.isEmpty)

/-- Induction on a character list following the two-character lookahead
pattern used by the delimiter scan. -/
theorem twoCons_induct {P : List Char → Prop} (h0 : P []) (h1 : ∀ c, P [c])
    (h2 : ∀ c1 c2 rest, P rest → P (c2 :: rest) → P (c1 :: c2 :: rest)) :
    ∀ l, P l
  | [] => h0
  | [c] => h1 c
  | c1 :: c2 :: rest =>
    h2 c1 c2 rest (twoCons_induct h0 h1 h2 rest) (twoCons_induct h0 h1 h2 (c2 :: rest))

theorem splitCRLF_ne_nil (l : List Char) : splitCRLF l ≠ [] := by
  induction l using twoCons_induct with
  | h0 => simp [splitCRLF]
  | h1 c => simp [splitCRLF]
  | h2 c1 c2 rest ih1 ih2 =>
    simp only [splitCRLF]
    split
    · simp
    · cases h : splitCRLF (c2 :: rest) with
      | nil => exact absurd h ih2
      | cons s ss => simp [consHead]

theorem dropLastL_cons_ne (s : List Char) (l : List (List Char)) (h : l ≠ []) :
    dropLastL (s :: l) = s :: dropLastL l := by
  cases l with
  | nil => exact absurd rfl h
  | cons a as => rfl

theorem lastD_cons_ne (s : List Char) (l : List (List Char)) (h : l ≠ []) :
    lastD (s :: l) = lastD l := by
  cases l with
  | nil => exact absurd rfl h
  | cons a as => rfl

theorem dropLastL_append_ne (A B : List (List Char)) (h : B ≠ []) :
    dropLastL (A ++ B) = A ++ dropLastL B := by
  induction A with
  | nil => rfl
  | cons a as ih =>
    have hne : as ++ B ≠ [] := by
      intro hx
      rcases List.append_eq_nil.mp hx with ⟨h1, h2⟩
      exact h h2
    rw [List.cons_append, dropLastL_cons_ne a (as ++ B) hne, ih, List.cons_append]

theorem lastD_append_ne (A B : List (List Char)) (h : B ≠ []) :
    lastD (A ++ B) = lastD B := by
  induction A with
  | nil => rfl
  | cons a as ih =>
    have hne : as ++ B ≠ [] := by
      intro hx
      rcases List.append_eq_nil.mp hx with ⟨h1, h2⟩
      exact h h2
    rw [List.cons_append, lastD_cons_ne a (as ++ B) hne, ih]

theorem dropLastL_concat (A : List (List Char)) (x : List Char) :
    dropLastL (A ++ [x]) = A := by
  rw [dropLastL_append_ne A [x] (by simp)]
  simp [dropLastL]

theorem lastD_concat (A : List (List Char)) (x : List Char) :
    lastD (A ++ [x]) = x := by
  rw [lastD_append_ne A [x] (by simp)]
  rfl

theorem consHead_nil (S : List (List Char)) (h : S ≠ []) : consHead [] S = S := by
  cases S with
  | nil => exact absurd rfl h
  | cons s ss => simp [consHead]

theorem dropLastL_ne_nil (S : List (List Char)) (h : 2 ≤ S.length) :
    dropLastL S ≠ [] := by
  match S, h with
  | a :: b :: ss, _ => simp [dropLastL]

theorem lastSeg_length_le (l : List Char) : (lastSeg l).length ≤ l.length := by
  induction l using twoCons_induct with
  | h0 => simp [lastSeg, splitCRLF, lastD]
  | h1 c => simp [lastSeg, splitCRLF, lastD]
  | h2 c1 c2 rest ih1 ih2 =>
    simp only [lastSeg, splitCRLF]
    split
    · rw [lastD_cons_ne _ _ (splitCRLF_ne_nil rest)]
      simp only [lastSeg] at ih1
      simp
      omega
    · cases h : splitCRLF (c2 :: rest) with
      | nil => exact absurd h (splitCRLF_ne_nil _)
      | cons s0 ss =>
        simp only [lastSeg, h] at ih2
        cases ss with
        | nil =>
          simp [consHead, lastD]
          simp [lastD] at ih2
          omega
        | cons s1 ss1 =>
          simp only [consHead, List.singleton_append]
          rw [lastD_cons_ne _ _ (by simp)]
          rw [lastD_cons_ne _ _ (by simp)] at ih2
          simp only [List.length_cons] at ih2 ⊢
          omega

theorem splitCRLF_head (c : Char) (rest s : List Char) (ss : List (List Char))
    (h : splitCRLF (c :: rest) = s :: ss) : s = [] ∨ ∃ t, s = c :: t := by
  cases rest with
  | nil =>
    simp [splitCRLF] at h
    right
    exact ⟨[], h.1.symm⟩
  | cons c2 r =>
    simp only [splitCRLF] at h
    split at h
    · left
      exact (List.cons.injEq _ _ _ _ ▸ h).1.symm
    · cases h2 : splitCRLF (c2 :: r) with
      | nil => exact absurd h2 (splitCRLF_ne_nil _)
      | cons s0 ss0 =>
        rw [h2] at h
        simp [consHead] at h
        right
        exact ⟨s0, h.1.symm⟩

theorem splitCRLF_no_crlf (l : List Char) :
    ∀ s ∈ splitCRLF l, hasCRLF s = false := by
  induction l using twoCons_induct with
  | h0 => intro s hs; simp [splitCRLF] at hs; simp [hs, hasCRLF]
  | h1 c => intro s hs; simp [splitCRLF] at hs; simp [hs, hasCRLF]
  | h2 c1 c2 rest ih1 ih2 =>
    intro s hs
    simp only [splitCRLF] at hs
    split at hs
    · rcases List.mem_cons.mp hs with h | h
      · simp [h, hasCRLF]
      · exact ih1 s h
    · rename_i hcond
      cases h2 : splitCRLF (c2 :: rest) with
      | nil => exact absurd h2 (splitCRLF_ne_nil _)
      | cons s0 ss0 =>
        rw [h2] at hs
        simp only [consHead, List.singleton_append] at hs
        rcases List.mem_cons.mp hs with h | h
        · subst h
          rcases splitCRLF_head c2 rest s0 ss0 h2 with he | ⟨t', ht'⟩
          · subst he
            simp [hasCRLF]
          · have hm : s0 ∈ splitCRLF (c2 :: rest) := by rw [h2]; simp
            have hfree := ih2 s0 hm
            subst ht'
            simp only [hasCRLF]
            rw [if_neg hcond]
            exact hfree
        · exact ih2 s (by rw [h2]; exact List.mem_cons_of_mem _ h)

theorem splitCRLF_of_no_crlf (l : List Char) (h : hasCRLF l = false) :
    splitCRLF l = [l] := by
  induction l using twoCons_induct with
  | h0 => rfl
  | h1 c => rfl
  | h2 c1 c2 rest ih1 ih2 =>
    simp only [hasCRLF] at h
    split at h
    · exact absurd h (by simp)
    · rename_i hcond
      simp only [splitCRLF, if_neg hcond]
      rw [ih2 h]
      rfl

theorem joinCRLF_split (l : List Char) :
    joinCRLF (dropLastL (splitCRLF l)) (lastSeg l) = l := by
  induction l using twoCons_induct with
  | h0 => rfl
  | h1 c => rfl
  | h2 c1 c2 rest ih1 ih2 =>
    simp only [lastSeg, splitCRLF]
    split
    · rename_i hcond
      obtain ⟨hc1, hc2⟩ := hcond
      rw [dropLastL_cons_ne _ _ (splitCRLF_ne_nil rest),
        lastD_cons_ne _ _ (splitCRLF_ne_nil rest)]
      simp only [joinCRLF, List.nil_append]
      simp only [lastSeg] at ih1
      rw [ih1, hc1, hc2]
    · cases h2 : splitCRLF (c2 :: rest) with
      | nil => exact absurd h2 (splitCRLF_ne_nil _)
      | cons s0 ss =>
        simp only [lastSeg, h2] at ih2
        simp only [consHead, List.singleton_append]
        cases ss with
        | nil =>
          simp only [dropLastL, lastD, joinCRLF] at ih2 ⊢
          rw [ih2]
        | cons s1 ss1 =>
          rw [dropLastL_cons_ne _ _ (by simp), lastD_cons_ne _ _ (by simp)]
          rw [dropLastL_cons_ne _ _ (by simp), lastD_cons_ne _ _ (by simp)] at ih2
          simp only [joinCRLF, List.cons_append] at ih2 ⊢
          rw [ih2]

theorem splitCRLF_singleton (l t : List Char) (h : splitCRLF l = [t]) : t = l := by
  have := joinCRLF_split l
  rw [h] at this
  simp only [lastSeg, h, dropLastL, lastD, joinCRLF] at this
  exact this

theorem splitCRLF_seg (s : List Char) (h : hasCRLF s = false) (k : List Char) :
    splitCRLF (s ++ '\r' :: '\n' :: k) = s :: splitCRLF k := by
  induction s using twoCons_induct with
  | h0 => simp [splitCRLF]
  | h1 c =>
    have : [c] ++ '\r' :: '\n' :: k = c :: '\r' :: '\n' :: k := rfl
    rw [this]
    simp only [splitCRLF]
    rw [if_neg (by simp)]
    rw [if_pos (by simp)]
    simp [consHead]
  | h2 c1 c2 rest ih1 ih2 =>
    simp only [hasCRLF] at h
    split at h
    · exact absurd h (by simp)
    · rename_i hcond
      have : (c1 :: c2 :: rest) ++ '\r' :: '\n' :: k
          = c1 :: c2 :: (rest ++ '\r' :: '\n' :: k) := rfl
      rw [this]
      simp only [splitCRLF]
      rw [if_neg hcond]
      have hr : c2 :: (rest ++ '\r' :: '\n' :: k) = (c2 :: rest) ++ '\r' :: '\n' :: k := rfl
      rw [hr, ih2 h]
      rfl

theorem splitCRLF_join (segs : List (List Char)) (t : List Char)
    (hs : ∀ s ∈ segs, hasCRLF s = false) (ht : hasCRLF t = false) :
    splitCRLF (joinCRLF segs t) = segs ++ [t] := by
  induction segs with
  | nil => simpa [joinCRLF] using splitCRLF_of_no_crlf t ht
  | cons s rest ih =>
    simp only [joinCRLF]
    rw [splitCRLF_seg s (hs s (by simp)) (joinCRLF rest t)]
    rw [ih (fun x hx => hs x (List.mem_cons_of_mem _ hx))]
    rfl

theorem splitCRLF_append (d x : List Char) :
    splitCRLF (x ++ d) = dropLastL (splitCRLF x) ++ splitCRLF (lastSeg x ++ d) := by
  induction x using twoCons_induct with
  | h0 => simp [splitCRLF, dropLastL, lastSeg, lastD]
  | h1 c => simp [splitCRLF, dropLastL, lastSeg, lastD]
  | h2 c1 c2 rest ih1 ih2 =>
    by_cases hcond : c1 = '\r' ∧ c2 = '\n'
    · have hL : splitCRLF ((c1 :: c2 :: rest) ++ d) = [] :: splitCRLF (rest ++ d) := by
        show splitCRLF (c1 :: c2 :: (rest ++ d)) = _
        simp only [splitCRLF]
        rw [if_pos hcond]
      have hS : splitCRLF (c1 :: c2 :: rest) = [] :: splitCRLF rest := by
        simp only [splitCRLF]
        rw [if_pos hcond]
      have hlast : lastSeg (c1 :: c2 :: rest) = lastSeg rest := by
        simp only [lastSeg, hS]
        exact lastD_cons_ne _ _ (splitCRLF_ne_nil rest)
      rw [hL, ih1, hS, hlast, dropLastL_cons_ne _ _ (splitCRLF_ne_nil rest),
        List.cons_append]
    · cases h2 : splitCRLF (c2 :: rest) with
      | nil => exact absurd h2 (splitCRLF_ne_nil _)
      | cons s0 ss =>
        have hL : splitCRLF ((c1 :: c2 :: rest) ++ d)
            = consHead [c1] (splitCRLF ((c2 :: rest) ++ d)) := by
          show splitCRLF (c1 :: c2 :: (rest ++ d)) = _
          simp only [splitCRLF]
          rw [if_neg hcond]
          rfl
        have hS : splitCRLF (c1 :: c2 :: rest) = consHead [c1] (s0 :: ss) := by
          simp only [splitCRLF]
          rw [if_neg hcond, h2]
        have hlast2 : lastSeg (c1 :: c2 :: rest) = lastD (consHead [c1] (s0 :: ss)) := by
          simp only [lastSeg, hS]
        have hlast : lastSeg (c2 :: rest) = lastD (s0 :: ss) := by
          simp only [lastSeg, h2]
        rw [hL, ih2, h2, hS, hlast2, hlast]
        cases ss with
        | nil =>
          have hs0 : s0 ≠ [] := by
            intro hc
            have := splitCRLF_singleton (c2 :: rest) s0 h2
            rw [hc] at this
            exact absurd this.symm (by simp)
          rcases splitCRLF_head c2 rest s0 [] h2 with he | ⟨t', ht'⟩
          · exact absurd he hs0
          · subst ht'
            simp only [consHead, dropLastL, lastD, List.singleton_append,
              List.nil_append]
            show consHead [c1] (splitCRLF (c2 :: (t' ++ d)))
                = splitCRLF (c1 :: c2 :: (t' ++ d))
            simp only [splitCRLF]
            rw [if_neg hcond]
        | cons s1 ss1 =>
          simp only [consHead, dropLastL, lastD, List.singleton_append,
            List.cons_append]

theorem joinCRLF_append_tail (segs : List (List Char)) (t : List Char) :
    joinCRLF segs t = joinCRLF segs [] ++ t := by
  induction segs with
  | nil => rfl
  | cons s ss ih =>
    simp only [joinCRLF, ih, List.append_assoc, List.cons_append]

theorem joinCRLF_nil_length (segs : List (List Char)) (h : segs ≠ []) :
    2 ≤ (joinCRLF segs []).length := by
  cases segs with
  | nil => exact absurd rfl h
  | cons s ss =>
    simp only [joinCRLF, List.length_append, List.length_cons]
    omega

/-- Equivalence of the imperative delimiter scan of `parse_buf` with the
specification-side split: the collected replies are the non-empty segments
before the delimiters (prefixed by the running `reply` accumulator), and the
final `chop` points just past the last delimiter. -/
theorem parseLoop_eq (l : List Char) :
    ∀ reply replies i chop,
    parseLoop l reply replies i chop =
      (replies.reverse
          ++ (dropLastL (consHead reply (splitCRLF l))).filter (fun s => !s.isEmpty),
        if (splitCRLF l).length ≤ 1 then chop
        else i + (l.length - (lastSeg l).length)) := by
  induction l using twoCons_induct with
  | h0 =>
    intro reply replies i chop
    simp [parseLoop, splitCRLF, consHead, dropLastL, lastSeg, lastD]
  | h1 c =>
    intro reply replies i chop
    simp [parseLoop, splitCRLF, consHead, dropLastL, lastSeg, lastD]
  | h2 c1 c2 rest ih1 ih2 =>
    intro reply replies i chop
    by_cases hcond : c1 = '\r' ∧ c2 = '\n'
    · have hP : parseLoop (c1 :: c2 :: rest) reply replies i chop
          = parseLoop rest []
              (if reply = [] then replies else reply :: replies) (i + 2) (i + 2) := by
        simp only [parseLoop]
        rw [if_pos hcond]
      have hS : splitCRLF (c1 :: c2 :: rest) = [] :: splitCRLF rest := by
        simp only [splitCRLF]
        rw [if_pos hcond]
      have hlast : lastSeg (c1 :: c2 :: rest) = lastSeg rest := by
        simp only [lastSeg, hS]
        exact lastD_cons_ne _ _ (splitCRLF_ne_nil rest)
      rw [hP, ih1, hS, hlast]
      rw [consHead_nil _ (splitCRLF_ne_nil rest)]
      have hch : consHead reply ([] :: splitCRLF rest) = reply :: splitCRLF rest := by
        simp [consHead]
      rw [hch, dropLastL_cons_ne _ _ (splitCRLF_ne_nil rest)]
      simp only [Prod.mk.injEq]
      constructor
      · by_cases hr : reply = []
        · subst hr
          simp
        · rw [if_neg hr, List.filter_cons,
            if_pos (show (!reply.isEmpty) = true by
              cases reply with
              | nil => exact absurd rfl hr
              | cons a as => rfl)]
          simp
      · have hlen1 : 1 ≤ (splitCRLF rest).length := by
          cases hh : splitCRLF rest with
          | nil => exact absurd hh (splitCRLF_ne_nil rest)
          | cons a as => simp
        have hlen2 : ¬(([] :: splitCRLF rest).length ≤ 1) := by
          simp only [List.length_cons]
          omega
        rw [if_neg hlen2]
        by_cases h1 : (splitCRLF rest).length ≤ 1
        · rw [if_pos h1]
          obtain ⟨t, ht⟩ := List.length_eq_one.mp (le_antisymm h1 hlen1)
          have := splitCRLF_singleton rest t ht
          subst this
          simp only [lastSeg, ht, lastD, List.length_cons]
          omega
        · rw [if_neg h1]
          have := lastSeg_length_le rest
          simp only [List.length_cons]
          omega
    · have hP : parseLoop (c1 :: c2 :: rest) reply replies i chop
          = parseLoop (c2 :: rest) (reply ++ [c1]) replies (i + 1) chop := by
        simp only [parseLoop]
        rw [if_neg hcond]
      cases h2 : splitCRLF (c2 :: rest) with
      | nil => exact absurd h2 (splitCRLF_ne_nil _)
      | cons s0 ss =>
        have hS : splitCRLF (c1 :: c2 :: rest) = (c1 :: s0) :: ss := by
          simp only [splitCRLF]
          rw [if_neg hcond, h2]
          simp [consHead]
        have hlast2 : lastSeg (c1 :: c2 :: rest) = lastD ((c1 :: s0) :: ss) := by
          simp only [lastSeg, hS]
        have hlast : lastSeg (c2 :: rest) = lastD (s0 :: ss) := by
          simp only [lastSeg, h2]
        rw [hP, ih2, h2, hS, hlast2, hlast]
        simp only [Prod.mk.injEq]
        constructor
        · have : consHead (reply ++ [c1]) (s0 :: ss)
              = consHead reply ((c1 :: s0) :: ss) := by
            simp [consHead, List.append_assoc]
          rw [this]
        · cases ss with
          | nil =>
            simp [lastD]
          | cons s1 ss1 =>
            rw [lastD_cons_ne _ _ (by simp),
              lastD_cons_ne (c1 :: s0) (s1 :: ss1) (by simp)]
            have hl1 : ¬((s0 :: s1 :: ss1).length ≤ 1) := by
              simp only [List.length_cons]
              omega
            have hl2 : ¬(((c1 :: s0) :: s1 :: ss1).length ≤ 1) := by
              simp only [List.length_cons]
              omega
            rw [if_neg hl1, if_neg hl2]
            have hle : (lastD (s1 :: ss1)).length ≤ (c2 :: rest).length := by
              have := lastSeg_length_le (c2 :: rest)
              rw [hlast, lastD_cons_ne s0 (s1 :: ss1) (by simp)] at this
              exact this
            simp only [List.length_cons] at hle ⊢
            omega

theorem drop_prefix_length (P T : List Char) :
    (P ++ T).drop (0 + ((P ++ T).length - T.length)) = T := by
  simp only [List.length_append]
  have hx : 0 + (P.length + T.length - T.length) = P.length := by omega
  rw [hx]
  exact List.drop_left P T

/-- `parse_buf` computes exactly the split-on-CRLF specification: the
returned replies are the non-empty segments before the delimiter
occurrences, and the new buffer is the unterminated tail. -/
theorem parse_buf_spec (l : List Char) :
    Sock.parse_buf l = (msgs l, lastSeg l) := by
  simp only [Sock.parse_buf]
  rw [parseLoop_eq l [] [] 0 0]
  rw [consHead_nil _ (splitCRLF_ne_nil l)]
  simp only [List.reverse_nil, List.nil_append, msgs]
  by_cases h1 : (splitCRLF l).length ≤ 1
  · rw [if_pos h1]
    have hlen1 : 1 ≤ (splitCRLF l).length := by
      cases hh : splitCRLF l with
      | nil => exact absurd hh (splitCRLF_ne_nil l)
      | cons a as => simp
    obtain ⟨t, ht⟩ := List.length_eq_one.mp (le_antisymm h1 hlen1)
    have htl := splitCRLF_singleton l t ht
    simp [lastSeg, ht, htl, lastD]
  · rw [if_neg h1]
    have hdne : dropLastL (splitCRLF l) ≠ [] := by
      apply dropLastL_ne_nil
      omega
    have hjoin : l = joinCRLF (dropLastL (splitCRLF l)) [] ++ lastSeg l := by
      conv_lhs => rw [← joinCRLF_split l]
      exact joinCRLF_append_tail _ _
    have hPlen : 2 ≤ (joinCRLF (dropLastL (splitCRLF l)) []).length :=
      joinCRLF_nil_length _ hdne
    have hlen : l.length
        = (joinCRLF (dropLastL (splitCRLF l)) []).length + (lastSeg l).length := by
      conv_lhs => rw [hjoin]
      simp [List.length_append]
    rw [if_pos (by omega)]
    have hdrop : l.drop (0 + (l.length - (lastSeg l).length)) = lastSeg l := by
      have h2 := drop_prefix_length (joinCRLF (dropLastL (splitCRLF l)) []) (lastSeg l)
      rw [← hjoin] at h2
      exact h2
    rw [hdrop]

theorem lastD_mem : ∀ (S : List (List Char)), S ≠ [] → lastD S ∈ S
  | [], h => absurd rfl h
  | [s], _ => by simp [lastD]
  | s :: s2 :: ss, _ => by
    rw [lastD_cons_ne _ _ (by simp)]
    exact List.mem_cons_of_mem _ (lastD_mem (s2 :: ss) (by simp))

theorem lastSeg_no_crlf (l : List Char) : hasCRLF (lastSeg l) = false :=
  splitCRLF_no_crlf l _ (lastD_mem _ (splitCRLF_ne_nil l))

theorem msgs_of_no_crlf (l : List Char) (h : hasCRLF l = false) : msgs l = [] := by
  simp [msgs, splitCRLF_of_no_crlf l h, dropLastL]

theorem lastSeg_of_no_crlf (l : List Char) (h : hasCRLF l = false) : lastSeg l = l := by
  simp [lastSeg, splitCRLF_of_no_crlf l h, lastD]

/-- Incremental parsing: the messages of `x ++ d` are the messages of `x`
followed by the messages completed once `d` is appended to the tail of `x`. -/
theorem msgs_append (x d : List Char) :
    msgs (x ++ d) = msgs x ++ msgs (lastSeg x ++ d) := by
  simp only [msgs]
  rw [splitCRLF_append d x, dropLastL_append_ne _ _ (splitCRLF_ne_nil _),
    List.filter_append]

theorem lastSeg_append (x d : List Char) :
    lastSeg (x ++ d) = lastSeg (lastSeg x ++ d) := by
  simp only [lastSeg]
  rw [splitCRLF_append d x]
  exact lastD_append_ne _ _ (splitCRLF_ne_nil _)

theorem msgs_join (segs : List (List Char)) (t : List Char)
    (hs : ∀ s ∈ segs, hasCRLF s = false) (ht : hasCRLF t = false) :
    msgs (joinCRLF segs t) = segs.filter (fun s => !s.isEmpty) := by
  simp only [msgs]
  rw [splitCRLF_join segs t hs ht, dropLastL_concat]

theorem lastSeg_join (segs : List (List Char)) (t : List Char)
    (hs : ∀ s ∈ segs, hasCRLF s = false) (ht : hasCRLF t = false) :
    lastSeg (joinCRLF segs t) = t := by
  simp only [lastSeg]
  rw [splitCRLF_join segs t hs ht, lastD_concat]

/-! ### The Chunk Reader (`Sock.get_chunks`) -/

/-- Break / return discipline of the inner read loop of `get_chunks`:
`brk b` models `break` out of the inner `while True` loop, with `b` recording
whether `repeat` was cleared by a blocking-socket timeout just before;
`ret` models the `return` statements that leave `get_chunks` after `close`. -/
inductive InnerOut where
  | brk (timedOut : Bool)
  | ret
deriving DecidableEq

/-- Result of one pass of the inner read loop: remaining transport results,
buffer, connected flag, final `chunk_no`, the number of `recv` calls
performed (instrumentation for the resource-limit claims), and how the loop
was left. -/
structure ReadRes where
  events : List RecvEv
  buf : List Char
  connected : Bool
  chunk_no : Nat
  recvs : Nat
  out : InnerOut

/-- Fuel weight of pending transport results: one data chunk can feed
several partial `recv` calls, so it weighs its length plus one. -/
def evSize : RecvEv → Nat
  | .chunk s => s.length + 1
  | _ => 1

def evsSize (evs : List RecvEv) : Nat := (evs.map evSize).sum

/-- The clamping of the local `chunk_size` variable on lines 263-265 of
`get_chunks`: never request more than the room left under the ceiling. -/
def clampCS (max_buf bufLen chunk_size : Nat) : Nat :=
  if max_buf - bufLen < chunk_size then max_buf - bufLen else chunk_size

/-- Count one more `recv` call in an inner-loop result. -/
def bump (r : ReadRes) : ReadRes :=
  ⟨r.events, r.buf, r.connected, r.chunk_no, r.recvs + 1, r.out⟩

/-- The queue of transport results after `recv chunk_size` consumed the head
data chunk `s`: a partially read chunk keeps its remainder queued. -/
def afterTake (chunk_size : Nat) (s : List Char) (rest : List RecvEv) : List RecvEv :=
  if s.drop chunk_size = [] then rest else .chunk (s.drop chunk_size) :: rest

/-- The inner `while True` read loop of `Sock.get_chunks` (sock.py lines
256-328), fuelled.  Faithful points: the buffer-ceiling guard breaks before
reading; `chunk_size` is clamped to the remaining room and the clamped value
persists for the rest of the pass (it is passed on to the recursive call);
the chunk-count guard applies only to non-blocking channels; `recv` on an
exhausted transport times out (blocking) or would-block (non-blocking); an
empty chunk (`b""`) closes and returns; a decode failure skips the chunk but
counts it; a blocking channel stops after one successful chunk.  The fuel
exceeds the event weight at every call site, so the `0` case is dead. -/
def readLoopF (blocking : Bool) (max_buf max_chunks : Nat) :
    Nat → List RecvEv → List Char → Nat → Nat → ReadRes
  | 0, evs, buf, chunk_no, _ => ⟨evs, buf, true, chunk_no, 0, .brk false⟩
  | fuel + 1, evs, buf, chunk_no, chunk_size =>
    if max_buf ≤ buf.length then ⟨evs, buf, true, chunk_no, 0, .brk false⟩
    else if max_chunks ≤ chunk_no ∧ blocking = false then
      ⟨evs, buf, true, chunk_no, 0, .brk false⟩
    else
      match evs with
      | [] =>
        if blocking then ⟨[], buf, true, chunk_no, 1, .brk true⟩
        else ⟨[], buf, true, chunk_no, 1, .brk false⟩
      | .timeout :: rest => ⟨rest, buf, true, chunk_no, 1, .brk true⟩
      | .wouldBlock :: rest => ⟨rest, buf, true, chunk_no, 1, .brk false⟩
      | .closed :: rest => ⟨rest, buf, false, chunk_no, 1, .ret⟩
      | .badChunk :: rest =>
        bump (readLoopF blocking max_buf max_chunks fuel rest buf
          (chunk_no + 1) (clampCS max_buf buf.length chunk_size))
      | .chunk s :: rest =>
        if s.take (clampCS max_buf buf.length chunk_size) = [] then
          ⟨rest, buf, false, chunk_no, 1, .ret⟩
        else if blocking then
          ⟨afterTake (clampCS max_buf buf.length chunk_size) s rest,
            buf ++ s.take (clampCS max_buf buf.length chunk_size),
            true, chunk_no, 1, .brk false⟩
        else
          bump (readLoopF blocking max_buf max_chunks fuel
            (afterTake (clampCS max_buf buf.length chunk_size) s rest)
            (buf ++ s.take (clampCS max_buf buf.length chunk_size))
            (chunk_no + 1) (clampCS max_buf buf.length chunk_size))

/-- One pass of the inner read loop, with sufficient fuel. -/
def readLoop (blocking : Bool) (max_buf max_chunks : Nat) (evs : List RecvEv)
    (buf : List Char) (chunk_no chunk_size : Nat) : ReadRes :=
  readLoopF blocking max_buf max_chunks (evsSize evs + 1) evs buf chunk_no chunk_size

/-- The outer `while repeat` loop of `Sock.get_chunks`: re-runs the inner
loop (with `chunk_size` reset, `chunk_no` carried over) while the channel is
blocking, no `fixed_limit` is given, the encoding is unicode and the buffer
still has no delimiter; a timeout (`repeat = 0`) or a `return` ends it.  The
200 ms sleep is not modelled; `fuel` bounds the iterations.  Returns the
remaining transport results, buffer, connected flag and total `recv` count. -/
def getChunksLoop (blocking unicode : Bool) (fl : Option Nat)
    (max_buf max_chunks self_chunk_size : Nat) :
    Nat → List RecvEv → List Char → Nat → Nat → List RecvEv × List Char × Bool × Nat
  | 0, evs, buf, _, acc => (evs, buf, true, acc)
  | fuel + 1, evs, buf, chunk_no, acc =>
    let r := readLoop blocking max_buf max_chunks evs buf chunk_no self_chunk_size
    match r.out with
    | .ret => (r.events, r.buf, false, acc + r.recvs)
    | .brk true => (r.events, r.buf, true, acc + r.recvs)
    | .brk false =>
      if blocking = true ∧ fl = none ∧ unicode = true ∧ hasCRLF r.buf = false then
        getChunksLoop blocking unicode fl max_buf max_chunks self_chunk_size
          fuel r.events r.buf r.chunk_no (acc + r.recvs)
      else (r.events, r.buf, true, acc + r.recvs)

/-- `Sock.get_chunks` (sock.py lines 231-342), instrumented with the number
of underlying `recv` calls it performs.  A disconnected channel returns
immediately; `fixed_limit` overrides both the buffer ceiling and the
chunk-count cap. -/
def Sock.get_chunksI (c : Sock) (fixed_limit : Option Nat) (unicode : Bool) :
    Sock × Nat :=
  if c.connected = false then (c, 0)
  else
    let mb := match fixed_limit with | some m => m | none => c.max_buf
    let mc := match fixed_limit with | some m => m | none => c.max_chunks
    let r := getChunksLoop c.blocking unicode fixed_limit mb mc c.chunk_size
      (evsSize c.events + 1) c.events c.buf 0 0
    ({ c with events := r.1, buf := r.2.1, connected := r.2.2.1 }, r.2.2.2)

def Sock.get_chunks (c : Sock) (fixed_limit : Option Nat) : Sock :=
  (Sock.get_chunksI c fixed_limit true).1

/-- `Sock.update` (sock.py lines 348-350): one chunk-reader pass followed by
one parser pass.  The source assigns `self.replies = self.parse_buf()`,
replacing the queue with the newly parsed messages. -/
def Sock.update (c : Sock) : Sock :=
  let c1 := Sock.get_chunks c none
  let pr := Sock.parse_buf c1.buf
  { c1 with buf := pr.2, replies := pr.1 }

/-! ### The Unified Sender (`Sock.send`, `Sock.send_line`) -/

/-- Result of the send loop: remaining send results, `total_sent`, the
connected flag, and whether the surrounding `except` branch was taken. -/
structure SendRes where
  sendEvents : List SendEv
  total : Nat
  connected : Bool
  raised : Bool
deriving DecidableEq

/-- The `while True` send loop of `Sock.send` (sock.py lines 373-388).  Each
event is one return of the underlying `socket.send`, accepting at most the
requested remainder; zero accepted bytes close the connection and stop; an
exhausted event list behaves like a raising send (handled by the `except`
branch: log, close, return 0).  The loop continues only while bytes remain
and the channel is blocking or `send_all` is set. -/
def sendLoop (blocking send_all : Bool) (msgLen : Nat) :
    List SendEv → Nat → SendRes
  | [], total => ⟨[], total, false, true⟩
  | .err :: rest, total => ⟨rest, total, false, true⟩
  | .ok n :: rest, total =>
    let bytes_sent := min n (msgLen - total)
    if bytes_sent = 0 then ⟨rest, total, false, false⟩
    else
      let total2 := total + bytes_sent
      if total2 < msgLen ∧ (blocking = true ∨ send_all = true) then
        sendLoop blocking send_all msgLen rest total2
      else ⟨rest, total2, true, false⟩

/-- `Sock.send` (sock.py lines 353-397): returns the byte count and the new
channel state; 0 and unchanged state when disconnected, 0 with the channel
closed when the underlying send raises. -/
def Sock.send (c : Sock) (msg : List Char) (send_all : Bool) : Nat × Sock :=
  if c.connected = false then (0, c)
  else
    let r := sendLoop c.blocking send_all msg.length c.sendEvents 0
    if r.raised = true then (0, { c with sendEvents := r.sendEvents, connected := false })
    else (r.total, { c with sendEvents := r.sendEvents, connected := r.connected })

/-- `Sock.send_line` (sock.py lines 462-498): appends the delimiter and
delegates to `send` with `send_all = 1`. -/
def Sock.send_line (c : Sock) (msg : List Char) : Nat × Sock :=
  if c.connected = false then (0, c)
  else Sock.send c (msg ++ ['\r', '\n']) true

/-! ### The Blocking-Emulation Receiver (`Sock.recv`, `Sock.recv_line`) -/

/-- The `while True` loop of `Sock.recv` (sock.py lines 420-423): keep
fetching with `fixed_limit = n` while fewer than `n` characters are buffered
on a connected blocking channel.  Fuelled: with the transport exhausted the
Python loop keeps timing out and retrying (there is no deadline check), so
the fuel is the truncation of that repetition. -/
def recvLoop (n : Nat) (unicode : Bool) : Nat → Sock → Sock
  | 0, c => c
  | fuel + 1, c =>
    let c1 := (Sock.get_chunksI c (some n) unicode).1
    if c1.buf.length < n ∧ c1.connected = true ∧ c1.blocking = true then
      recvLoop n unicode fuel c1
    else c1

/-- `Sock.recv` (sock.py lines 400-458): returns the read characters and the
new state.  Empty result when disconnected; otherwise the live buffer is
swapped out for an empty one, chunks are fetched with `fixed_limit = n`, the
collected buffer is returned, and the saved buffer is restored. -/
def Sock.recv (c : Sock) (n : Nat) (unicode : Bool) : List Char × Sock :=
  if c.connected = false then ([], c)
  else
    let temp_buf := c.buf
    let c2 := recvLoop n unicode (evsSize c.events + 1) { c with buf := [] }
    (c2.buf, { c2 with buf := temp_buf })

/-- The `while True` loop of `Sock.recv_line` (sock.py lines 511-524): drive
`update` until the channel disconnects (second component `true`: the
`return u""` on line 516), or the break condition holds.  The wall-clock
deadline check of line 523 is represented by the fuel. -/
def recvLineLoop : Nat → Sock → Sock × Bool
  | 0, c => (c, false)
  | fuel + 1, c =>
    let c1 := Sock.update c
    if c1.connected = false then (c1, true)
    else if (c1.replies.length = 0 ∨ c1.max_buf ≤ c1.buf.length) ∧ c1.blocking = true then
      recvLineLoop fuel c1
    else (c1, false)

/-- `Sock.recv_line` (sock.py lines 502-535): swaps the buffer out, drives
the update loop, then — only on a blocking channel — pops and returns the
oldest queued reply; otherwise returns the empty string.  The `finally`
block restores the saved buffer on every path. -/
def Sock.recv_line (c : Sock) : List Char × Sock :=
  let old_buf := c.buf
  let r := recvLineLoop (evsSize c.events + 1) { c with buf := [] }
  let c1 := r.1
  if r.2 = true then ([], { c1 with buf := old_buf })
  else
    if c1.blocking = true then
      match c1.replies with
      | t :: rest => (t, { c1 with buf := old_buf, replies := rest })
      | [] => ([], { c1 with buf := old_buf })
    else ([], { c1 with buf := old_buf })

/-! ### Connection lifecycle and the iteration protocol -/

/-- `Sock.close` (sock.py lines 173-186): clears the connected flag and
best-effort releases the socket (the released handle is not modelled). -/
def Sock.close (c : Sock) : Sock := { c with connected := false }

/-- `Sock.connect` (sock.py lines 142-171): stores the address and port,
then attempts the transport connect (`ok` says whether it succeeds).  On
failure the socket is closed, the error is logged, and
`socket.error("Socket connect failed.")` is raised — the returned `Bool` is
`true` exactly when the call raises. -/
def Sock.connect (c : Sock) (a p : Nat) (ok : Bool) : Sock × Bool :=
  let c2 := { c with addr := some (some a), port := some (some p) }
  if ok = true then ({ c2 with connected := true }, false)
  else (Sock.close c2, true)

/-- `Sock.reconnect` (sock.py lines 133-139).  The returned `Bool` is `true`
when the call raises: reading `self.addr` (or `self.port`) on a channel
where the attribute was never assigned raises `AttributeError`, and this
read happens outside the `try`.  A connect failure inside the `try` is
swallowed, leaving the channel disconnected. -/
def Sock.reconnect (c : Sock) (ok : Bool) : Sock × Bool :=
  if c.connected = true then (c, false)
  else
    match c.addr with
    | none => (c, true)
    | some none => (c, false)
    | some (some a) =>
      match c.port with
      | none => (c, true)
      | some none => (c, false)
      | some (some p) =>
        let r := Sock.connect c a p ok
        if r.2 = true then ({ r.1 with connected := false }, false)
        else (r.1, false)

/-- `Sock.__iter__` (sock.py lines 576-590): update, apply the optional
reply filter, drain the queue, return the drained messages. -/
def Sock.iterReplies (c : Sock) : List (List Char) × Sock :=
  let c1 := Sock.update c
  let replies :=
    match c1.reply_filter with
    | some f => c1.replies.filter f
    | none => c1.replies
  (replies, { c1 with replies := [] })

/-- `Sock.__reversed__` (sock.py lines 592-593): `return self.__iter__()`. -/
def Sock.reversedReplies (c : Sock) : List (List Char) × Sock :=
  Sock.iterReplies c

/-! ### Scenario helpers (specification-side) -/

/-- Feed buffer chunks one at a time through the accumulation buffer and the
frame parser, collecting the messages each pass completes — the incremental
arrival scenario of the specification. -/
def feedParse (chunks : List (List Char)) : List (List Char) × List Char :=
  chunks.foldl
    (fun st d =>
      let pr := Sock.parse_buf (st.2 ++ d)
      (st.1 ++ pr.1, pr.2))
    ([], [])

/-- Transport results for a sequence of poll passes: each pass delivers its
data chunks and then reports would-block. -/
def passEvents (passes : List (List (List Char))) : List RecvEv :=
  (passes.map (fun p => p.map RecvEv.chunk ++ [RecvEv.wouldBlock])).flatten

/-- Call `update` `n` times, recording the reply queue after each call. -/
def driveUpdates : Nat → Sock → List (List (List Char)) × Sock
  | 0, c => ([], c)
  | n + 1, c =>
    let c1 := Sock.update c
    let r := driveUpdates n c1
    (c1.replies :: r.1, r.2)

/-! ### Resource-limit facts about the Chunk Reader -/

theorem clampCS_le_rem (mb bl cs : Nat) : clampCS mb bl cs ≤ mb - bl := by
  simp only [clampCS]
  split
  · omega
  · omega

/-- One inner pass never grows the buffer past the ceiling. -/
theorem readLoopF_buf_le (blocking : Bool) (mb mc : Nat) :
    ∀ (fuel : Nat) (evs : List RecvEv) (buf : List Char) (cn cs : Nat),
    buf.length ≤ mb →
    (readLoopF blocking mb mc fuel evs buf cn cs).buf.length ≤ mb := by
  intro fuel
  induction fuel with
  | zero =>
    intro evs buf cn cs h
    simpa [readLoopF] using h
  | succ f ih =>
    intro evs buf cn cs h
    simp only [readLoopF]
    split
    · simpa using h
    · split
      · simpa using h
      · split
        · split
          · simpa using h
          · simpa using h
        · simpa using h
        · simpa using h
        · simpa using h
        · simpa [bump] using ih _ _ _ _ h
        · rename_i s rest
          split
          · simpa using h
          · rename_i h3
            have hlen : (buf ++ s.take (clampCS mb buf.length cs)).length ≤ mb := by
              have h4 : (s.take (clampCS mb buf.length cs)).length
                  ≤ clampCS mb buf.length cs := by
                rw [List.length_take]
                exact min_le_left _ _
              have h5 := clampCS_le_rem mb buf.length cs
              rename_i hg1 hg2
              simp only [List.length_append]
              omega
            split
            · simpa using hlen
            · simpa [bump] using ih _ _ _ _ hlen

/-- A non-blocking inner pass performs at most `max_chunks - chunk_no`
`recv` calls. -/
theorem readLoopF_recvs_le (mb mc : Nat) :
    ∀ (fuel : Nat) (evs : List RecvEv) (buf : List Char) (cn cs : Nat),
    (readLoopF false mb mc fuel evs buf cn cs).recvs ≤ mc - cn := by
  intro fuel
  induction fuel with
  | zero =>
    intro evs buf cn cs
    simp [readLoopF]
  | succ f ih =>
    intro evs buf cn cs
    simp only [readLoopF]
    split
    · simp
    · split
      · simp
      · rename_i h1 h2
        have hcn : cn < mc := by
          by_contra hx
          exact h2 ⟨by omega, by trivial⟩
        split
        · split
          · simp
            omega
          · simp
            omega
        · simp
          omega
        · simp
          omega
        · simp
          omega
        · rename_i rest
          have := ih rest buf (cn + 1) (clampCS mb buf.length cs)
          simp only [bump]
          omega
        · rename_i s rest
          split
          · simp
            omega
          · have := ih (afterTake (clampCS mb buf.length cs) s rest)
              (buf ++ s.take (clampCS mb buf.length cs)) (cn + 1)
              (clampCS mb buf.length cs)
            simp only [Bool.false_eq_true, if_false, bump]
            omega

/-- The outer fetch loop never grows the buffer past the ceiling. -/
theorem getChunksLoop_buf_le (blocking unicode : Bool) (fl : Option Nat)
    (mb mc scs : Nat) :
    ∀ (fuel : Nat) (evs : List RecvEv) (buf : List Char) (cn acc : Nat),
    buf.length ≤ mb →
    (getChunksLoop blocking unicode fl mb mc scs fuel evs buf cn acc).2.1.length ≤ mb := by
  intro fuel
  induction fuel with
  | zero =>
    intro evs buf cn acc h
    simpa [getChunksLoop] using h
  | succ f ih =>
    intro evs buf cn acc h
    simp only [getChunksLoop, readLoop]
    have hb := readLoopF_buf_le blocking mb mc (evsSize evs + 1) evs buf cn scs h
    split
    · simpa using hb
    · simpa using hb
    · split
      · exact ih _ _ _ _ hb
      · simpa using hb

/-- The effective buffer ceiling of a fetch: the caller-supplied
`fixed_limit` when given, the configured `max_buf` otherwise. -/
def effLimit (c : Sock) (fl : Option Nat) : Nat :=
  match fl with
  | some m => m
  | none => c.max_buf

/-- The effective chunk-count cap of a fetch. -/
def effChunks (c : Sock) (fl : Option Nat) : Nat :=
  match fl with
  | some m => m
  | none => c.max_chunks

/-- `get_chunks` keeps the buffer within the effective ceiling:
`fixed_limit` when supplied, the configured `max_buf` otherwise. -/
theorem get_chunksI_buf_le (c : Sock) (fl : Option Nat) (u : Bool)
    (h : c.buf.length ≤ effLimit c fl) :
    ((Sock.get_chunksI c fl u).1).buf.length ≤ effLimit c fl := by
  by_cases hcc : c.connected = false
  · simp only [Sock.get_chunksI, if_pos hcc]
    exact h
  · simp only [Sock.get_chunksI, if_neg hcc]
    exact getChunksLoop_buf_le c.blocking u fl (effLimit c fl)
      (effChunks c fl) c.chunk_size
      (evsSize c.events + 1) c.events c.buf 0 0 h

/-- `get_chunks` touches only the buffer, the transport queue and the
connected flag. -/
theorem get_chunksI_pres (c : Sock) (fl : Option Nat) (u : Bool) :
    ((Sock.get_chunksI c fl u).1).blocking = c.blocking
    ∧ ((Sock.get_chunksI c fl u).1).max_buf = c.max_buf
    ∧ ((Sock.get_chunksI c fl u).1).max_chunks = c.max_chunks
    ∧ ((Sock.get_chunksI c fl u).1).chunk_size = c.chunk_size
    ∧ ((Sock.get_chunksI c fl u).1).replies = c.replies
    ∧ ((Sock.get_chunksI c fl u).1).reply_filter = c.reply_filter := by
  simp only [Sock.get_chunksI]
  split
  · simp
  · simp

theorem update_blocking (c : Sock) : (Sock.update c).blocking = c.blocking :=
  (get_chunksI_pres c none true).1

theorem update_max_buf (c : Sock) : (Sock.update c).max_buf = c.max_buf :=
  (get_chunksI_pres c none true).2.1

/-- One `update` keeps the buffer within the configured ceiling (the parser
can only shrink the buffer). -/
theorem update_buf_le (c : Sock) (h : c.buf.length ≤ c.max_buf) :
    (Sock.update c).buf.length ≤ c.max_buf := by
  have h1 : ((Sock.get_chunks c none)).buf.length ≤ c.max_buf := by
    simpa [Sock.get_chunks] using get_chunksI_buf_le c none true h
  show ((Sock.parse_buf (Sock.get_chunks c none).buf).2).length ≤ c.max_buf
  rw [parse_buf_spec]
  exact le_trans (lastSeg_length_le _) h1

/-- Any number of `update` calls keeps the buffer within the ceiling. -/
theorem iterate_update_buf_le (c : Sock) (h : c.buf.length ≤ c.max_buf) :
    ∀ n, ((Sock.update)^[n] c).buf.length ≤ c.max_buf
      ∧ ((Sock.update)^[n] c).max_buf = c.max_buf := by
  intro n
  induction n with
  | zero => exact ⟨h, rfl⟩
  | succ k ih =>
    rw [Function.iterate_succ_apply']
    obtain ⟨ih1, ih2⟩ := ih
    refine ⟨?_, ?_⟩
    · have hx : ((Sock.update)^[k] c).buf.length ≤ ((Sock.update)^[k] c).max_buf := by
        rw [ih2]
        exact ih1
      have := update_buf_le _ hx
      rw [ih2] at this
      exact this
    · rw [update_max_buf, ih2]

/-- On a non-blocking channel the outer fetch loop makes exactly one inner
pass (the `repeat` condition requires a blocking channel). -/
theorem getChunksLoop_nonblocking (u : Bool) (fl : Option Nat) (mb mc scs : Nat)
    (fuel : Nat) (evs : List RecvEv) (buf : List Char) (cn acc : Nat)
    (hf : 1 ≤ fuel) :
    getChunksLoop false u fl mb mc scs fuel evs buf cn acc
      = ((readLoop false mb mc evs buf cn scs).events,
         (readLoop false mb mc evs buf cn scs).buf,
         (match (readLoop false mb mc evs buf cn scs).out with
          | .ret => false
          | .brk _ => true),
         acc + (readLoop false mb mc evs buf cn scs).recvs) := by
  obtain ⟨f, rfl⟩ : ∃ f, fuel = f + 1 := ⟨fuel - 1, by omega⟩
  simp only [getChunksLoop]
  split
  · rename_i heq
    rw [heq]
  · rename_i heq
    rw [heq]
  · rename_i heq
    rw [heq]
    simp

/-- A single non-blocking `get_chunks` call performs at most `max_chunks`
`recv` calls, however much data is immediately available. -/
theorem get_chunksI_recvs_le (c : Sock) (hb : c.blocking = false) :
    (Sock.get_chunksI c none true).2 ≤ c.max_chunks := by
  simp only [Sock.get_chunksI]
  split
  · simp
  · rw [hb, getChunksLoop_nonblocking _ _ _ _ _ _ _ _ _ _ (by omega)]
    simp only [readLoop]
    have := readLoopF_recvs_le c.max_buf c.max_chunks (evsSize c.events + 1)
      c.events c.buf 0 c.chunk_size
    simpa using this

theorem length_le_flatten (p : List (List Char)) (s : List Char) (h : s ∈ p) :
    s.length ≤ p.flatten.length := by
  induction p with
  | nil => cases h
  | cons a as ih =>
    have hx : (a :: as).flatten = a ++ as.flatten := by simp
    rcases List.mem_cons.mp h with h1 | h1
    · subst h1
      rw [hx, List.length_append]
      omega
    · have := ih h1
      rw [hx, List.length_append]
      omega

theorem evsSize_cons (e : RecvEv) (l : List RecvEv) :
    evsSize (e :: l) = evSize e + evsSize l := by
  simp [evsSize]

/-- A non-blocking inner pass over a run of data chunks that all fit (sizes
within `chunk_size`, total within the ceiling, count within the cap) appends
exactly their concatenation to the buffer, consumes them and the trailing
would-block signal, and performs one `recv` per chunk plus the final
would-blocking one. -/
theorem readLoopF_chunks (mb mc : Nat) :
    ∀ (p : List (List Char)) (fuel : Nat) (evs0 : List RecvEv) (buf : List Char)
      (cn cs : Nat),
    (∀ s ∈ p, s ≠ [] ∧ s.length ≤ cs) →
    buf.length + p.flatten.length < mb →
    cn + p.length < mc →
    evsSize (p.map RecvEv.chunk ++ RecvEv.wouldBlock :: evs0) ≤ fuel →
    readLoopF false mb mc fuel (p.map RecvEv.chunk ++ RecvEv.wouldBlock :: evs0)
        buf cn cs
      = ⟨evs0, buf ++ p.flatten, true, cn + p.length, p.length + 1, .brk false⟩ := by
  intro p
  induction p with
  | nil =>
    intro fuel evs0 buf cn cs hchunks hbuf hcn hfuel
    obtain ⟨f, rfl⟩ : ∃ f, fuel = f + 1 := by
      cases fuel with
      | zero =>
        exfalso
        rw [List.map_nil, List.nil_append, evsSize_cons] at hfuel
        simp [evSize] at hfuel
      | succ f => exact ⟨f, rfl⟩
    simp only [List.flatten_nil, List.length_nil, Nat.add_zero] at hbuf
    simp only [List.length_nil, Nat.add_zero] at hcn
    simp only [List.map_nil, List.nil_append, readLoopF]
    split
    · rename_i hg
      exact absurd hg (by omega)
    · split
      · rename_i hg
        exact absurd hg.1 (by omega)
      · simp
  | cons s p' ih =>
    intro fuel evs0 buf cn cs hchunks hbuf hcn hfuel
    obtain ⟨hs_ne, hs_le⟩ := hchunks s (by simp)
    obtain ⟨f, rfl⟩ : ∃ f, fuel = f + 1 := by
      cases fuel with
      | zero =>
        exfalso
        rw [List.map_cons, List.cons_append, evsSize_cons] at hfuel
        simp [evSize] at hfuel
      | succ f => exact ⟨f, rfl⟩
    have hjoin : (s :: p').flatten = s ++ p'.flatten := by simp
    have hjlen : (s :: p').flatten.length = s.length + p'.flatten.length := by
      rw [hjoin, List.length_append]
    have hplen : (s :: p').length = p'.length + 1 := by simp
    have hcs' : s.length ≤ clampCS mb buf.length cs := by
      simp only [clampCS]
      split
      · omega
      · omega
    have htake : s.take (clampCS mb buf.length cs) = s :=
      List.take_of_length_le hcs'
    have hdrop : s.drop (clampCS mb buf.length cs) = [] := by
      rw [List.drop_eq_nil_iff]
      exact hcs'
    have hAfter : afterTake (clampCS mb buf.length cs) s
        (p'.map RecvEv.chunk ++ RecvEv.wouldBlock :: evs0)
        = p'.map RecvEv.chunk ++ RecvEv.wouldBlock :: evs0 := by
      simp [afterTake, hdrop]
    simp only [List.map_cons, List.cons_append, readLoopF]
    split
    · rename_i hg
      exact absurd hg (by omega)
    · split
      · rename_i hg
        exact absurd hg.1 (by omega)
      · split
        · rename_i hempty
          rw [htake] at hempty
          exact absurd hempty hs_ne
        · split
          · rename_i habs
            exact absurd habs (by simp)
          · rw [htake, hAfter]
            have hchunks2 : ∀ s' ∈ p', s' ≠ [] ∧ s'.length ≤ clampCS mb buf.length cs := by
              intro s' hs'
              refine ⟨(hchunks s' (by simp [hs'])).1, ?_⟩
              have h1 : s'.length ≤ cs := (hchunks s' (by simp [hs'])).2
              have h2 : s'.length ≤ p'.flatten.length := length_le_flatten p' s' hs'
              rw [hjlen] at hbuf
              simp only [clampCS]
              split
              · omega
              · omega
            have hb2 : (buf ++ s).length + p'.flatten.length < mb := by
              rw [List.length_append]
              rw [hjlen] at hbuf
              omega
            have hc2 : cn + 1 + p'.length < mc := by
              rw [hplen] at hcn
              omega
            have hf2 : evsSize (p'.map RecvEv.chunk ++ RecvEv.wouldBlock :: evs0) ≤ f := by
              rw [List.map_cons, List.cons_append, evsSize_cons] at hfuel
              have h1 : 1 ≤ evSize (RecvEv.chunk s) := by simp [evSize]
              omega
            have hrec := ih f evs0 (buf ++ s) (cn + 1) (clampCS mb buf.length cs)
              hchunks2 hb2 hc2 hf2
            rw [hrec]
            simp only [bump, ReadRes.mk.injEq, and_true, true_and, eq_self_iff_true]
            refine ⟨?_, ?_, ?_⟩
            · rw [hjoin, ← List.append_assoc]
            · rw [hplen]
              omega
            · rw [hplen]

/-- One non-blocking `update` on a channel whose transport holds a fitting
run of data chunks followed by a would-block signal: the chunks are appended
to the buffer, the parser keeps the unterminated tail, and the reply queue
is replaced by the newly completed messages. -/
theorem update_chunks (c : Sock) (p : List (List Char)) (evs0 : List RecvEv)
    (hb : c.blocking = false) (hc : c.connected = true)
    (hev : c.events = p.map RecvEv.chunk ++ RecvEv.wouldBlock :: evs0)
    (hchunks : ∀ s ∈ p, s ≠ [] ∧ s.length ≤ c.chunk_size)
    (hbuf : c.buf.length + p.flatten.length < c.max_buf)
    (hcn : p.length < c.max_chunks) :
    Sock.update c = { c with
      events := evs0,
      buf := lastSeg (c.buf ++ p.flatten),
      replies := msgs (c.buf ++ p.flatten),
      connected := true } := by
  have hgc : Sock.get_chunks c none
      = { c with events := evs0, buf := c.buf ++ p.flatten, connected := true } := by
    simp only [Sock.get_chunks, Sock.get_chunksI]
    rw [if_neg (by rw [hc]; simp)]
    rw [hb, getChunksLoop_nonblocking _ _ _ _ _ _ _ _ _ _ (by omega)]
    simp only [readLoop]
    rw [hev]
    rw [readLoopF_chunks c.max_buf c.max_chunks p _ evs0 c.buf 0 c.chunk_size
      hchunks (by omega) (by omega) (by omega)]
  simp only [Sock.update, hgc, parse_buf_spec]

/-- Driving a non-blocking channel through a sequence of poll passes: the
concatenation of the reply queues observed after each `update` call is the
full message sequence of the stream, in order, and the final buffer is the
unterminated tail.  (Each individual queue is exactly that pass's newly
completed messages — `update` replaces the queue.) -/
theorem driveUpdates_spec :
    ∀ (passes : List (List (List Char))) (c : Sock),
    c.blocking = false → c.connected = true →
    c.events = passEvents passes →
    hasCRLF c.buf = false →
    (∀ p ∈ passes, p.length < c.max_chunks
      ∧ ∀ s ∈ p, s ≠ [] ∧ s.length ≤ c.chunk_size) →
    c.buf.length + ((passes.map (fun q => q.flatten)).flatten).length < c.max_buf →
    (driveUpdates passes.length c).1.flatten
        = msgs (c.buf ++ (passes.map (fun q => q.flatten)).flatten)
      ∧ ((driveUpdates passes.length c).2).buf
        = lastSeg (c.buf ++ (passes.map (fun q => q.flatten)).flatten) := by
  intro passes
  induction passes with
  | nil =>
    intro c hb hc hev hfree hpass hlen
    simp only [List.length_nil, driveUpdates, List.map_nil, List.flatten_nil,
      List.append_nil]
    constructor
    · simp [msgs_of_no_crlf _ hfree]
    · simp [lastSeg_of_no_crlf _ hfree]
  | cons p rest ih =>
    intro c hb hc hev hfree hpass hlen
    have hevsplit : c.events
        = p.map RecvEv.chunk ++ RecvEv.wouldBlock :: passEvents rest := by
      rw [hev]
      simp [passEvents, List.append_assoc]
    have hDsplit : (((p :: rest).map (fun q => q.flatten)).flatten)
        = p.flatten ++ ((rest.map (fun q => q.flatten)).flatten) := by
      simp
    have hlen2 : c.buf.length + p.flatten.length
        + ((rest.map (fun q => q.flatten)).flatten).length < c.max_buf := by
      rw [hDsplit, List.length_append] at hlen
      omega
    have hup := update_chunks c p (passEvents rest) hb hc hevsplit
      (fun s hs => (hpass p (by simp)).2 s hs)
      (by omega)
      ((hpass p (by simp)).1)
    have htail_len : (lastSeg (c.buf ++ p.flatten)).length
        ≤ c.buf.length + p.flatten.length := by
      have := lastSeg_length_le (c.buf ++ p.flatten)
      rw [List.length_append] at this
      exact this
    have hi := ih { c with
        events := passEvents rest,
        buf := lastSeg (c.buf ++ p.flatten),
        replies := msgs (c.buf ++ p.flatten),
        connected := true }
      (by simpa using hb) (by simp) (by simp) (by simpa using lastSeg_no_crlf _)
      (by
        intro q hq
        simpa using hpass q (by simp [hq]))
      (by
        simp only []
        omega)
    obtain ⟨hi1, hi2⟩ := hi
    have hbufproj : ({ c with
        events := passEvents rest,
        buf := lastSeg (c.buf ++ p.flatten),
        replies := msgs (c.buf ++ p.flatten),
        connected := true } : Sock).buf = lastSeg (c.buf ++ p.flatten) := rfl
    rw [hbufproj] at hi1 hi2
    simp only [List.length_cons, driveUpdates, hup]
    rw [hDsplit, ← List.append_assoc]
    constructor
    · rw [List.flatten_cons, hi1,
        msgs_append (c.buf ++ p.flatten) ((rest.map (fun q => q.flatten)).flatten)]
    · rw [hi2,
        ← lastSeg_append (c.buf ++ p.flatten) ((rest.map (fun q => q.flatten)).flatten)]

/-- The incremental parse fold, from any CRLF-free carried tail: collected
messages are the messages of the whole stream seen so far. -/
theorem feedParse_loop :
    ∀ (chunks : List (List Char)) (acc : List (List Char)) (b : List Char),
    hasCRLF b = false →
    List.foldl
      (fun st d =>
        let pr := Sock.parse_buf (st.2 ++ d)
        (st.1 ++ pr.1, pr.2)) (acc, b) chunks
      = (acc ++ msgs (b ++ chunks.flatten), lastSeg (b ++ chunks.flatten)) := by
  intro chunks
  induction chunks with
  | nil =>
    intro acc b hfree
    simp [msgs_of_no_crlf _ hfree, lastSeg_of_no_crlf _ hfree]
  | cons d rest ih =>
    intro acc b hfree
    rw [List.foldl_cons]
    dsimp only
    rw [parse_buf_spec (b ++ d)]
    dsimp only
    rw [ih (acc ++ msgs (b ++ d)) (lastSeg (b ++ d)) (lastSeg_no_crlf _)]
    rw [List.flatten_cons, ← List.append_assoc]
    rw [msgs_append (b ++ d) rest.flatten,
      ← lastSeg_append (b ++ d) rest.flatten]
    simp [List.append_assoc]

/-- Feeding chunks one at a time through buffer and parser produces exactly
the messages of the concatenated stream, with the unterminated tail left in
the buffer. -/
theorem feedParse_spec (chunks : List (List Char)) :
    feedParse chunks = (msgs chunks.flatten, lastSeg chunks.flatten) := by
  have h := feedParse_loop chunks [] [] rfl
  simpa [feedParse] using h

/-- With `send_all` forced, the send loop either raises, or closes the
connection, or completes the whole message. -/
theorem sendLoop_full (msgLen : Nat) (blocking : Bool) :
    ∀ (evs : List SendEv) (total : Nat), total ≤ msgLen →
    (sendLoop blocking true msgLen evs total).raised = true
    ∨ (sendLoop blocking true msgLen evs total).connected = false
    ∨ (sendLoop blocking true msgLen evs total).total = msgLen := by
  intro evs
  induction evs with
  | nil =>
    intro total h
    left
    rfl
  | cons e rest ih =>
    intro total h
    cases e with
    | err =>
      left
      rfl
    | ok n =>
      simp only [sendLoop]
      split
      · right
        left
        rfl
      · split
        · exact ih _ (by
            have := min_le_right n (msgLen - total)
            omega)
        · right
          right
          rename_i h0 h1
          have h2 : ¬(total + min n (msgLen - total) < msgLen) := by
            intro hx
            exact h1 ⟨hx, Or.inr (by trivial)⟩
          have h3 : min n (msgLen - total) ≤ msgLen - total := min_le_right _ _
          show total + min n (msgLen - total) = msgLen
          omega

/-- `recv_line`'s update loop leaves the blocking flag untouched. -/
theorem recvLineLoop_blocking :
    ∀ (fuel : Nat) (c : Sock), ((recvLineLoop fuel c).1).blocking = c.blocking := by
  intro fuel
  induction fuel with
  | zero =>
    intro c
    rfl
  | succ f ih =>
    intro c
    simp only [recvLineLoop]
    split
    · exact update_blocking c
    · split
      · rw [ih]
        exact update_blocking c
      · exact update_blocking c

/-- A disconnected channel's `get_chunks` is a no-op. -/
theorem get_chunksI_disconnected (c : Sock) (fl : Option Nat) (u : Bool)
    (h : c.connected = false) : Sock.get_chunksI c fl u = (c, 0) := by
  simp [Sock.get_chunksI, h]

theorem mem_dropLastL : ∀ (S : List (List Char)) (s : List Char),
    s ∈ dropLastL S → s ∈ S
  | [], s, h => by cases h
  | [_], s, h => by cases h
  | a :: b :: S, s, h => by
    rcases List.mem_cons.mp h with h1 | h1
    · simp [h1]
    · exact List.mem_cons_of_mem _ (mem_dropLastL (b :: S) s h1)

/-- `send_line` on a connected channel either sends the whole line —
payload plus the two delimiter bytes — or tears the connection down. -/
theorem send_line_spec (c : Sock) (msg : List Char) (hc : c.connected = true) :
    ((Sock.send_line c msg).1 = msg.length + 2
      ∧ ((Sock.send_line c msg).2).connected = true)
    ∨ ((Sock.send_line c msg).2).connected = false := by
  have hne : ¬(c.connected = false) := by
    rw [hc]
    simp
  simp only [Sock.send_line, Sock.send]
  rw [if_neg hne]
  rw [if_neg hne]
  set r := sendLoop c.blocking true (msg ++ ['\r', '\n']).length c.sendEvents 0 with hr
  rcases sendLoop_full (msg ++ ['\r', '\n']).length c.blocking c.sendEvents 0
      (by omega) with h1 | h1 | h1
  · rw [← hr] at h1
    rw [if_pos h1]
    right
    rfl
  · rw [← hr] at h1
    by_cases h2 : r.raised = true
    · rw [if_pos h2]
      right
      rfl
    · rw [if_neg h2]
      right
      simpa using h1
  · rw [← hr] at h1
    by_cases h2 : r.raised = true
    · rw [if_pos h2]
      right
      rfl
    · rw [if_neg h2]
      cases hco : r.connected with
      | false =>
        right
        simpa using hco
      | true =>
        left
        constructor
        · show r.total = msg.length + 2
          rw [h1]
          simp
        · simpa using hco

/-- A disconnected channel's `recv_line` returns the empty string. -/
theorem recv_line_disconnected (c : Sock) (h : c.connected = false) :
    (Sock.recv_line c).1 = [] := by
  have h0 : ({ c with buf := ([] : List Char) } : Sock).connected = false := h
  have hup : (Sock.update { c with buf := ([] : List Char) }).connected = false := by
    show ((Sock.get_chunksI { c with buf := ([] : List Char) } none true).1).connected
        = false
    rw [get_chunksI_disconnected _ none true h0]
    exact h0
  simp only [Sock.recv_line, recvLineLoop]
  rw [if_pos hup]
  simp

/-- A non-blocking channel's `recv_line` always returns the empty string:
the pop of the oldest queued reply happens only under the blocking flag. -/
theorem recv_line_nonblocking_aux (c : Sock) (hb : c.blocking = false) :
    (Sock.recv_line c).1 = [] := by
  have hbl : ((recvLineLoop (evsSize ({ c with buf := ([] : List Char) } : Sock).events + 1)
      { c with buf := ([] : List Char) }).1).blocking = false := by
    rw [recvLineLoop_blocking]
    exact hb
  simp only [Sock.recv_line]
  split
  · rfl
  · rw [if_neg (by rw [hbl]; simp)]

/-! ### Concrete channels used by the witnesses and counterexamples -/

/-- A channel with the constructor's default configuration (`Sock.__init__`,
sock.py lines 40-74, no address given): non-blocking, 1 MiB buffer ceiling,
1024 chunks per poll, 100 KiB chunk size, disconnected, no address stored. -/
def sockBase : Sock :=
  { buf := [], replies := [], connected := false, blocking := false,
    max_buf := 1024 * 1024, max_chunks := 1024, chunk_size := 100 * 1024,
    events := [], sendEvents := [], reply_filter := none,
    addr := none, port := none }

/-- A connected non-blocking channel whose peer sends two complete messages,
observed in two poll passes. -/
def sockTwo : Sock :=
  { sockBase with
    connected := true,
    events := [RecvEv.chunk ['a', '\r', '\n'], RecvEv.wouldBlock,
               RecvEv.chunk ['b', '\r', '\n'], RecvEv.wouldBlock] }

/-- A connected non-blocking channel with one complete line pending. -/
def sockLine : Sock :=
  { sockBase with
    connected := true,
    events := [RecvEv.chunk ['h', 'i', '\r', '\n'], RecvEv.wouldBlock] }

/-- A connected channel whose transport accepts 3 bytes, then everything. -/
def sockSend : Sock :=
  { sockBase with
    connected := true,
    sendEvents := [SendEv.ok 3, SendEv.ok 100] }

/-- A connected channel with a partial line buffered and 4 bytes pending. -/
def sockRecv : Sock :=
  { sockBase with
    connected := true,
    buf := ['x', 'y'],
    events := [RecvEv.chunk ['a', 'b', 'c', 'd'], RecvEv.wouldBlock] }

/-! ### The claims -/

/-- Claim C1, counterexample: after two `update` calls that each complete
one message ("a", then "b" — two delimiter occurrences in the stream), the
reply queue holds only the last pass's message, not both: `update` assigns
`self.replies = self.parse_buf()`, so an unconsumed queued message is
discarded, contradicting "messages already queued and not yet consumed are
retained" and "the reply queue holds exactly k messages in total". -/
theorem claim1_counterexample :
    (Sock.update (Sock.update sockTwo)).replies = [['b']]
    ∧ (Sock.update (Sock.update sockTwo)).replies.length ≠ 2 := by
  constructor
  · decide
  · decide

/-- Claim C1 (amended): each `update` call replaces the reply queue with the
messages newly completed in that pass, so on a non-blocking channel the
queues observed after successive `update` calls concatenate to exactly the
k messages of the byte stream — bytes between consecutive delimiters, empty
segments dropped, in stream order, none duplicated and none skipped — and
the buffer ends as the unterminated tail; but messages left unconsumed in
the queue are not retained across the next `update`. -/
theorem claim1_amended :
    ∀ (passes : List (List (List Char))) (c : Sock),
    c.blocking = false → c.connected = true →
    c.events = passEvents passes →
    hasCRLF c.buf = false →
    (∀ p ∈ passes, p.length < c.max_chunks
      ∧ ∀ s ∈ p, s ≠ [] ∧ s.length ≤ c.chunk_size) →
    c.buf.length + ((passes.map (fun q => q.flatten)).flatten).length < c.max_buf →
    (driveUpdates passes.length c).1.flatten
        = msgs (c.buf ++ (passes.map (fun q => q.flatten)).flatten)
      ∧ ((driveUpdates passes.length c).2).buf
        = lastSeg (c.buf ++ (passes.map (fun q => q.flatten)).flatten) :=
  driveUpdates_spec

/-- Witness for C1 (amended) at a concrete two-pass stream. -/
theorem claim1_witness :
    (driveUpdates ([[['a', '\r', '\n']], [['b', '\r', '\n']]]
        : List (List (List Char))).length sockTwo).1.flatten
      = [['a'], ['b']] := by
  have h := claim1_amended [[['a', '\r', '\n']], [['b', '\r', '\n']]] sockTwo
    rfl rfl (by decide) rfl (by decide) (by decide)
  rw [h.1]
  decide

/-- Claim C2: one `parse_buf` call returns, in order, the messages before
each delimiter occurrence (empty segments dropped), and leaves the buffer
holding the text after the last delimiter — untouched when there is none.
The second part shows every buffer content arises this way: it decomposes
into delimiter-free segments joined by delimiters plus a delimiter-free
tail. -/
theorem claim2 :
    (∀ (segs : List (List Char)) (t : List Char),
      (∀ s ∈ segs, hasCRLF s = false) → hasCRLF t = false →
      Sock.parse_buf (joinCRLF segs t) = (segs.filter (fun s => !s.isEmpty), t))
    ∧ (∀ buf : List Char,
        joinCRLF (dropLastL (splitCRLF buf)) (lastSeg buf) = buf
        ∧ (∀ s ∈ dropLastL (splitCRLF buf), hasCRLF s = false)
        ∧ hasCRLF (lastSeg buf) = false) := by
  constructor
  · intro segs t hs ht
    rw [parse_buf_spec, msgs_join segs t hs ht, lastSeg_join segs t hs ht]
  · intro buf
    exact ⟨joinCRLF_split buf,
      fun s hs => splitCRLF_no_crlf buf s (mem_dropLastL _ s hs),
      lastSeg_no_crlf buf⟩

/-- Witness for C2: two delimiters, one empty segment dropped, tail kept. -/
theorem claim2_witness :
    Sock.parse_buf (joinCRLF [['h', 'i'], []] ['x']) = ([['h', 'i']], ['x']) := by
  have h := claim2.1 [['h', 'i'], []] ['x'] (by decide) (by decide)
  rw [h]
  decide

/-- Claim C3: the buffer never exceeds the effective ceiling (`max_buf`, or
the caller's `fixed_limit`) after a fetch or after any number of `update`
calls — excess bytes are withheld, not appended — and a single non-blocking
`get_chunks` call performs at most `max_chunks` `recv` calls. -/
theorem claim3 :
    (∀ (c : Sock) (fl : Option Nat), c.buf.length ≤ effLimit c fl →
      ((Sock.get_chunks c fl)).buf.length ≤ effLimit c fl)
    ∧ (∀ (c : Sock) (n : Nat), c.buf.length ≤ c.max_buf →
        ((Sock.update)^[n] c).buf.length ≤ c.max_buf)
    ∧ (∀ c : Sock, c.blocking = false →
        (Sock.get_chunksI c none true).2 ≤ c.max_chunks) := by
  refine ⟨?_, ?_, ?_⟩
  · intro c fl h
    exact get_chunksI_buf_le c fl true h
  · intro c n h
    exact (iterate_update_buf_le c h n).1
  · intro c hb
    exact get_chunksI_recvs_le c hb

/-- Witness for C3 at concrete channels. -/
theorem claim3_witness :
    ((Sock.get_chunks sockRecv none)).buf.length ≤ effLimit sockRecv none
    ∧ (Sock.get_chunksI sockTwo none true).2 ≤ sockTwo.max_chunks := by
  exact ⟨claim3.1 sockRecv none (by decide), claim3.2.2 sockTwo rfl⟩

/-- Claim C4: a message split across any number of chunk arrivals — the
delimiter possibly split across two chunks — parses to exactly the same
single message as feeding all bytes at once: emitted once, only after all
its bytes arrived, with no partial or duplicate emission. -/
theorem claim4 :
    ∀ (msg : List Char) (chunks : List (List Char)),
    hasCRLF msg = false → msg ≠ [] →
    chunks.flatten = msg ++ ['\r', '\n'] →
    feedParse chunks = ([msg], [])
    ∧ Sock.parse_buf (msg ++ ['\r', '\n']) = ([msg], []) := by
  intro msg chunks hfree hne hflat
  have hjoin : msg ++ ['\r', '\n'] = joinCRLF [msg] [] := by
    simp [joinCRLF]
  have hsegs : ∀ s ∈ [msg], hasCRLF s = false := by
    intro s hs
    simp only [List.mem_singleton] at hs
    rw [hs]
    exact hfree
  have hmsgs : msgs (msg ++ ['\r', '\n']) = [msg] := by
    rw [hjoin, msgs_join [msg] [] hsegs rfl]
    cases msg with
    | nil => exact absurd rfl hne
    | cons a as => rfl
  have hlast : lastSeg (msg ++ ['\r', '\n']) = [] := by
    rw [hjoin, lastSeg_join [msg] [] hsegs rfl]
  constructor
  · rw [feedParse_spec, hflat, hmsgs, hlast]
  · rw [parse_buf_spec, hmsgs, hlast]

/-- Witness for C4: "hi" delivered in three chunks, the delimiter split
across the last two. -/
theorem claim4_witness :
    feedParse [['h'], ['i', '\r'], ['\n']] = ([['h', 'i']], []) := by
  have h := claim4 ['h', 'i'] [['h'], ['i', '\r'], ['\n']]
    (by decide) (by decide) (by decide)
  exact h.1

/-- Claim C5: `send_line` on a connected channel appends the two-byte
delimiter and retries partial sends until complete, returning the payload
length plus 2, or tears the connection down — whatever the blocking mode. -/
theorem claim5 :
    ∀ (c : Sock) (msg : List Char), c.connected = true →
    ((Sock.send_line c msg).1 = msg.length + 2
      ∧ ((Sock.send_line c msg).2).connected = true)
    ∨ ((Sock.send_line c msg).2).connected = false :=
  send_line_spec

/-- Witness for C5: a 4-byte payload sent over a transport that accepts 3
bytes first, so the loop retries and completes all 6 bytes. -/
theorem claim5_witness :
    (Sock.send_line sockSend ['P', 'I', 'N', 'G']).1 = 6
    ∨ ((Sock.send_line sockSend ['P', 'I', 'N', 'G']).2).connected = false := by
  rcases claim5 sockSend ['P', 'I', 'N', 'G'] rfl with ⟨h1, h2⟩ | h
  · left
    exact h1
  · right
    exact h

/-- Claim C6, counterexample: a transport failure in `connect` is not
swallowed — line 171 of sock.py raises
`socket.error("Socket connect failed.")`, so an exception does escape a
public operation. -/
theorem claim6_counterexample : (Sock.connect sockBase 1 2 false).2 = true := by
  decide

/-- Claim C6 (amended): no exception escapes the public operations except
`connect`: a failing `connect` closes, logs and raises, while `send`,
`send_line`, `recv`, `recv_line`, `reconnect` (with a stored address) and
`close` degrade to default values (0 bytes, empty string, disconnected
state) on transport failure. -/
theorem claim6_amended :
    (∀ (c : Sock) (a p : Nat), (Sock.connect c a p false).2 = true)
    ∧ (∀ (c : Sock) (msg : List Char) (sa : Bool),
        c.sendEvents = [SendEv.err] →
        (Sock.send c msg sa).1 = 0 ∧ ((Sock.send c msg sa).2).connected = false)
    ∧ (∀ (c : Sock) (msg : List Char), c.sendEvents = [SendEv.err] →
        (Sock.send_line c msg).1 = 0)
    ∧ (∀ (c : Sock) (n : Nat) (u : Bool), c.connected = false →
        (Sock.recv c n u).1 = [])
    ∧ (∀ c : Sock, c.connected = false → (Sock.recv_line c).1 = [])
    ∧ (∀ (c : Sock) (a p : Nat) (ok : Bool), c.connected = false →
        c.addr = some (some a) → c.port = some (some p) →
        (Sock.reconnect c ok).2 = false)
    ∧ (∀ c : Sock, (Sock.close c).connected = false) := by
  refine ⟨?_, ?_, ?_, ?_, ?_, ?_, ?_⟩
  · intro c a p
    simp [Sock.connect, Sock.close]
  · intro c msg sa hse
    by_cases hc : c.connected = false
    · constructor
      · simp [Sock.send, hc]
      · simp [Sock.send, hc]
    · constructor
      · simp only [Sock.send, if_neg hc]
        rw [hse]
        simp [sendLoop]
      · simp only [Sock.send, if_neg hc]
        rw [hse]
        simp [sendLoop]
  · intro c msg hse
    by_cases hc : c.connected = false
    · simp [Sock.send_line, hc]
    · simp only [Sock.send_line, if_neg hc, Sock.send, if_neg hc]
      rw [hse]
      simp [sendLoop]
  · intro c n u hc
    simp [Sock.recv, hc]
  · intro c hc
    exact recv_line_disconnected c hc
  · intro c a p ok hc ha hp
    cases ok with
    | false => simp [Sock.reconnect, hc, ha, hp, Sock.connect, Sock.close]
    | true => simp [Sock.reconnect, hc, ha, hp, Sock.connect, Sock.close]
  · intro c
    rfl

/-- Witness for C6 (amended) at concrete channels. -/
theorem claim6_witness :
    (Sock.recv sockBase 5 true).1 = [] ∧ (Sock.recv_line sockBase).1 = [] := by
  exact ⟨claim6_amended.2.2.2.1 sockBase 5 true rfl,
    claim6_amended.2.2.2.2.1 sockBase rfl⟩

/-- Claim C7, counterexample: on a freshly constructed, never-connected
channel no address attribute exists, and `reconnect` evaluates `self.addr`
outside any `try`, so the call raises (`AttributeError`) instead of being a
no-op. -/
theorem claim7_counterexample : (Sock.reconnect sockBase true).2 = true := by
  decide

/-- Claim C7 (amended): `reconnect` is a no-op without raising when the
channel is already connected, or when the stored address attribute exists
and is empty; with a stored address and port it retries `connect` and
swallows a failure, leaving the channel disconnected; but on a channel
whose address attribute was never assigned, `reconnect` raises an attribute
error instead of returning quietly. -/
theorem claim7_amended :
    (∀ (c : Sock) (ok : Bool), c.connected = true → Sock.reconnect c ok = (c, false))
    ∧ (∀ (c : Sock) (ok : Bool), c.connected = false → c.addr = some none →
        Sock.reconnect c ok = (c, false))
    ∧ (∀ (c : Sock) (a p : Nat), c.connected = false → c.addr = some (some a) →
        c.port = some (some p) →
        ((Sock.reconnect c false).2 = false
          ∧ ((Sock.reconnect c false).1).connected = false)
        ∧ ((Sock.reconnect c true).2 = false
          ∧ ((Sock.reconnect c true).1).connected = true))
    ∧ (∀ (c : Sock) (ok : Bool), c.connected = false → c.addr = none →
        (Sock.reconnect c ok).2 = true) := by
  refine ⟨?_, ?_, ?_, ?_⟩
  · intro c ok hc
    simp [Sock.reconnect, hc]
  · intro c ok hc ha
    simp [Sock.reconnect, hc, ha]
  · intro c a p hc ha hp
    refine ⟨⟨?_, ?_⟩, ⟨?_, ?_⟩⟩
    · simp [Sock.reconnect, hc, ha, hp, Sock.connect, Sock.close]
    · simp [Sock.reconnect, hc, ha, hp, Sock.connect, Sock.close]
    · simp [Sock.reconnect, hc, ha, hp, Sock.connect, Sock.close]
    · simp [Sock.reconnect, hc, ha, hp, Sock.connect, Sock.close]
  · intro c ok hc ha
    simp [Sock.reconnect, hc, ha]

/-- Witness for C7 (amended): a connected channel, and a disconnected one
with a stored address whose failing reconnect is swallowed. -/
theorem claim7_witness :
    Sock.reconnect { sockBase with connected := true } true
      = ({ sockBase with connected := true }, false)
    ∧ (Sock.reconnect { sockBase with
        addr := some (some 9), port := some (some 80) } false).2 = false := by
  exact ⟨claim7_amended.1 { sockBase with connected := true } true rfl,
    (claim7_amended.2.2.1 { sockBase with
      addr := some (some 9), port := some (some 80) } 9 80 rfl rfl rfl).1.1⟩

/-- Claim C8: on every return path of `recv` the accumulation buffer ends
equal to its value at entry (the fixed-size read swaps in a clean buffer and
restores the saved one), and a disconnected channel yields an empty result
rather than an error. -/
theorem claim8 :
    ∀ (c : Sock) (n : Nat) (u : Bool),
    ((Sock.recv c n u).2).buf = c.buf
    ∧ (c.connected = false → Sock.recv c n u = ([], c)) := by
  intro c n u
  constructor
  · simp only [Sock.recv]
    split
    · rfl
    · rfl
  · intro hc
    simp [Sock.recv, hc]

/-- Witness for C8: the partial line `"xy"` survives a 2-byte read, and a
disconnected channel returns empty. -/
theorem claim8_witness :
    ((Sock.recv sockRecv 2 true).2).buf = sockRecv.buf
    ∧ Sock.recv sockBase 3 true = ([], sockBase) := by
  exact ⟨(claim8 sockRecv 2 true).1, (claim8 sockBase 3 true).2 rfl⟩

/-- Claim C9: the reversed traversal is extensionally the very same
operation as the forward consuming iteration — same update-filter-drain
behaviour and same (forward) order — and it drains the queue. -/
theorem claim9 :
    ∀ c : Sock, Sock.reversedReplies c = Sock.iterReplies c
      ∧ ((Sock.reversedReplies c).2).replies = [] := by
  intro c
  exact ⟨rfl, rfl⟩

/-- Claim C10: a non-blocking channel's `recv_line` always returns the
empty string — only a blocking channel ever pops the queue — even when a
complete message arrives and is parsed into the reply queue during the
call (see the witness). -/
theorem claim10 :
    ∀ c : Sock, c.blocking = false → (Sock.recv_line c).1 = [] :=
  recv_line_nonblocking_aux

/-- Witness for C10: a complete line arrives and is queued during the call,
yet the returned string is empty. -/
theorem claim10_witness :
    (Sock.recv_line sockLine).1 = []
    ∧ ((Sock.recv_line sockLine).2).replies = [['h', 'i']] := by
  exact ⟨claim10 sockLine rfl, by decide⟩
